import Mathlib

/-!
Formal model of `src/bin/schedule.rs` from the `iba_kyuko_bot` repository.

Conventions of the embedding:

* Calendar dates (`chrono::NaiveDate`) are represented by their absolute day
  number (a `Nat`), with the epoch chosen so that day `0` is a Sunday.  This
  representation preserves everything the code uses about dates: `succ`
  (successor day) becomes `d + 1`, `weekday().num_days_from_sunday()` becomes
  `d % 7`, and the total order on dates becomes the order on `Nat`.
* `chrono::NaiveDateTime` is the structure `NaiveDateTime` below; the code only
  ever inspects the date, the hour, the minute and (implicitly, through the
  total order) the second of such a value, and only ever constructs values with
  second `0` (`and_hms(h, m, 0)`).
* `u32` values are `Nat`s; where wrap-around matters (the `1 + e` computation
  in `parse_range`), the reduction modulo `2 ^ 32` is explicit.
* Zoned instants (`chrono::DateTime<Tz>`) are modelled as `Int` timestamps;
  `signed_duration_since` becomes subtraction and `Duration::to_std` succeeds
  exactly on non-negative values, as in chrono.
* Fallible or panicking code paths return `Option`: a `none` marks a path on
  which the Rust code would panic (an `unwrap` failure) or diverge (a loop
  that cannot terminate); loops whose trip count is bounded a priori are run
  on an explicit fuel bound that is provably sufficient whenever the loop
  terminates at all.
-/

set_option maxRecDepth 20000

/-- Model of `chrono::NaiveDateTime`: absolute day number (day 0 is a Sunday),
hour, minute and second of the day. -/
structure NaiveDateTime where
  day : Nat
  hour : Nat
  minute : Nat
  second : Nat
  deriving DecidableEq

/-- Total number of seconds represented by a `NaiveDateTime`; the order used by
chrono on `NaiveDateTime` (and, per time zone, on `DateTime`) agrees with the
numeric order of this value for in-range field values. -/
def NaiveDateTime.toSec (t : NaiveDateTime) : Nat :=
  ((t.day * 24 + t.hour) * 60 + t.minute) * 60 + t.second

/-! ## `parse_range` and the `u32` parser it relies on -/

/-- Numeric value of an ASCII digit, as used by `u32: FromStr`. -/
def digitVal (c : Char) : Nat := c.toNat - 48

/-- Strip one leading ASCII plus sign, as `u32: FromStr` does. -/
def stripPlus : List Char → List Char
  | [] => []
  | c :: rest => if c = '+' then rest else c :: rest

/-- Model of `str::parse::<u32>` on the character list of the input: after an
optional leading plus sign the input must be a non-empty run of ASCII digits
whose value fits in a `u32`. -/
def parseU32Chars (cs : List Char) : Option Nat :=
  let ds := stripPlus cs
  if ds.isEmpty then Option.none
  else if ds.all Char.isDigit then
    let n := ds.foldl (fun acc c => acc * 10 + digitVal c) 0
    if n < 4294967296 then some n else Option.none
  else Option.none

/-- Model of `s.find('-')` followed by `s.split_at(i)` and `&e[1..]`: the part
of the string strictly before the first dash together with the part strictly
after it, or `none` when the string has no dash. -/
def splitAtDash : List Char → Option (List Char × List Char)
  | [] => Option.none
  | c :: rest =>
    if c = '-' then some ([], rest)
    else (splitAtDash rest).map (fun p => (c :: p.1, p.2))

/-- Model of `parse_range` (schedule.rs lines 319-331).  The result is the
`(start, end)` pair of the returned half-open `Range<u32>`; the exclusive end
is `1 + e` computed in `u32` arithmetic, hence the explicit reduction modulo
`2 ^ 32`. -/
def parse_range (s : String) : Option (Nat × Nat) :=
  match splitAtDash s.data with
  | some (l, r) =>
    match parseU32Chars l, parseU32Chars r with
    | some a, some e => some (a, (1 + e) % 4294967296)
    | _, _ => Option.none
  | Option.none => Option.none

/-- The list of values an iterated Rust `Range<u32>` `s..e` produces. -/
def rangeList (s e : Nat) : List Nat := List.range' s (e - s)

/-! ## `UnitSchedule::new` -/

/-- Model of `Vec::dedup`: remove consecutive duplicate elements. -/
def rustDedup : List Nat → List Nat
  | [] => []
  | [a] => [a]
  | a :: b :: rest =>
    if a = b then rustDedup (b :: rest) else a :: rustDedup (b :: rest)

/-- Model of the `regularize!` macro in `UnitSchedule::new`: an empty vector is
replaced by the full domain `lo..hi`; otherwise the vector is sorted and
deduplicated and the construction fails when the smallest element is below `lo`
or the largest element reaches `hi`. -/
def regularize (v : List Nat) (lo hi : Nat) : Option (List Nat) :=
  if v.isEmpty then some (List.range' lo (hi - lo))
  else
    let w := rustDedup (List.insertionSort (· ≤ ·) v)
    if w.headD 0 < lo ∨ hi ≤ w.getLastD 0 then Option.none else some w

/-- Model of the `UnitSchedule` struct: the three normalized value lists. -/
structure UnitSchedule where
  wdays : List Nat
  hours : List Nat
  mins : List Nat
  deriving DecidableEq

/-- Model of `UnitSchedule::new` (schedule.rs lines 107-133). -/
def UnitSchedule.new (wdays hours mins : List Nat) : Option UnitSchedule :=
  match regularize wdays 0 7, regularize hours 0 24, regularize mins 0 60 with
  | some w, some h, some m => some ⟨w, h, m⟩
  | _, _, _ => Option.none

/-! ## The cyclic counter and `UnitSchedule::iter_since` -/

/-- Weekday-hour-minute triples, ordered lexicographically as Rust tuples. -/
abbrev Whm := Nat × Nat × Nat

/-- Strict lexicographic order on weekday-hour-minute triples (the Rust tuple
order used by `iter_since`). -/
def whmLtB (a b : Whm) : Bool :=
  Nat.blt a.1 b.1 ||
    (Nat.beq a.1 b.1 &&
      (Nat.blt a.2.1 b.2.1 || (Nat.beq a.2.1 b.2.1 && Nat.blt a.2.2 b.2.2)))

/-- Lexicographic order on hour-minute pairs (the Rust tuple order used in the
first adjustment step of `iter_since`). -/
def hmLeB (a b : Nat × Nat) : Bool :=
  Nat.blt a.1 b.1 || (Nat.beq a.1 b.1 && Nat.ble a.2 b.2)

/-- Modelled from the spec: `util::CarryingUpIterator` (the mixed-radix cyclic
counter of spec section 4.1) is part of this repository but its source is not
under `src/`.  Per the spec it enumerates the Cartesian product of three
non-empty ordered sets in lexicographic order with the last component varying
fastest, and wraps around forever.  The state is the three lists plus the
number of values already produced; the value at position `p` is obtained by
viewing `p` in the mixed radix given by the three list lengths. -/
structure CarryingUpIterator where
  wdays : List Nat
  hours : List Nat
  mins : List Nat
  pos : Nat
  deriving DecidableEq

/-- Modelled from the spec: construction of the cyclic counter fails on an
empty component set. -/
def CarryingUpIterator.new (w h m : List Nat) : Option CarryingUpIterator :=
  if w.isEmpty || h.isEmpty || m.isEmpty then Option.none
  else some ⟨w, h, m, 0⟩

/-- The triple the cyclic counter yields at absolute position `p`. -/
def CarryingUpIterator.get (it : CarryingUpIterator) (p : Nat) : Whm :=
  (it.wdays.getD ((p / (it.hours.length * it.mins.length)) % it.wdays.length) 0,
   it.hours.getD ((p / it.mins.length) % it.hours.length) 0,
   it.mins.getD (p % it.mins.length) 0)

/-- Pull one triple from the cyclic counter and advance its state. -/
def CarryingUpIterator.next (it : CarryingUpIterator) : Whm × CarryingUpIterator :=
  (it.get it.pos, ⟨it.wdays, it.hours, it.mins, it.pos + 1⟩)

/-- Length of one full cycle of the counter built from a pattern. -/
def cycleLen (us : UnitSchedule) : Nat :=
  us.wdays.length * us.hours.length * us.mins.length

/-- The first priming loop of `iter_since` (lines 158-163): pull triples,
remembering the previously pulled one in `before`, until a triple strictly
greater than `sinceWhm` appears.  The loop is run on explicit fuel; with fuel
one full cycle it finds such a triple exactly when one exists, and a `none`
result models the Rust loop never terminating. -/
def loopA : Nat → CarryingUpIterator → Whm → Whm → Option (Whm × CarryingUpIterator)
  | 0, _, _, _ => Option.none
  | fuel + 1, it, sinceWhm, before =>
    let p := it.next
    if whmLtB sinceWhm p.1 then some (before, p.2)
    else loopA fuel p.2 sinceWhm p.1

/-- The second priming loop of `iter_since` (lines 165-169): pull triples until
the remembered `before` triple comes around again.  Fuel as in `loopA`. -/
def loopB : Nat → CarryingUpIterator → Whm → Option CarryingUpIterator
  | 0, _, _ => Option.none
  | fuel + 1, it, target =>
    let p := it.next
    if p.1 = target then some p.2 else loopB fuel p.2 target

/-- The weekday-search loop at lines 144-147: advance the date day by day until
its weekday is a member of `wdays`.  Fuel 7 suffices whenever `wdays` contains
a value below 7; `none` models the Rust loop never terminating. -/
def findWdayMem : Nat → List Nat → Nat → Option Nat
  | 0, _, _ => Option.none
  | fuel + 1, wdays, d =>
    if wdays.contains (d % 7) then some d else findWdayMem fuel wdays (d + 1)

/-- The weekday-search loop at lines 310-312 of `Iter::next`: advance the date
day by day until its weekday equals `w`.  Fuel as in `findWdayMem`. -/
def findWdayEq : Nat → Nat → Nat → Option Nat
  | 0, _, _ => Option.none
  | fuel + 1, w, d =>
    if d % 7 = w then some d else findWdayEq fuel w (d + 1)

/-- Model of the `Iter` struct: the primed cyclic counter plus the tracked
calendar date. -/
structure Iter where
  inner : CarryingUpIterator
  date : Nat
  deriving DecidableEq

/-- Model of `UnitSchedule::iter_since` (schedule.rs lines 135-175).  A `none`
result marks an input on which the Rust function panics or loops forever. -/
def UnitSchedule.iter_since (us : UnitSchedule) (since : NaiveDateTime) : Option Iter :=
  let lastHM : Nat × Nat := (us.hours.getLastD 0, us.mins.getLastD 0)
  let stepOne : Nat × (Nat × Nat) :=
    if hmLeB lastHM (since.hour, since.minute) then (since.day + 1, (0, 0))
    else (since.day, (since.hour, since.minute))
  match findWdayMem 7 us.wdays stepOne.1 with
  | Option.none => Option.none
  | some d2 =>
    let hm2 := if d2 = stepOne.1 then stepOne.2 else (0, 0)
    let sinceWhm : Whm := (d2 % 7, hm2.1, hm2.2)
    match CarryingUpIterator.new us.wdays us.hours us.mins with
    | Option.none => Option.none
    | some it0 =>
      let before0 : Whm := (us.wdays.getLastD 0, us.hours.getLastD 0, us.mins.getLastD 0)
      match loopA (cycleLen us) it0 sinceWhm before0 with
      | Option.none => Option.none
      | some (before, it1) =>
        match loopB (cycleLen us) it1 before with
        | Option.none => Option.none
        | some it2 => some ⟨it2, d2⟩

/-- Model of `<Iter as Iterator>::next` (schedule.rs lines 304-316). -/
def Iter.next (it : Iter) : Option (NaiveDateTime × Iter) :=
  let p := it.inner.next
  match findWdayEq 7 p.1.1 it.date with
  | Option.none => Option.none
  | some d => some (⟨d, p.1.2.1, p.1.2.2, 0⟩, ⟨p.2, d⟩)

/-- The first `n` timestamps the iterator produces. -/
def Iter.take (it : Iter) : Nat → Option (List NaiveDateTime)
  | 0 => some []
  | n + 1 =>
    match it.next with
    | some (v, it') => (it'.take n).map (fun l => v :: l)
    | Option.none => Option.none

/-- The first `n` elements of `occurrences_after(since)` for a pattern. -/
def occurrences (us : UnitSchedule) (since : NaiveDateTime) (n : Nat) :
    Option (List NaiveDateTime) :=
  match us.iter_since since with
  | some it => it.take n
  | Option.none => Option.none

/-! ## The timer-driven event source (`Schedule`) -/

/-- Model of `chrono::LocalResult` for a resolved zoned instant: a local time
may not exist, resolve uniquely, or be ambiguous between an earlier and a
later instant. -/
inductive LocalResult where
  | None : LocalResult
  | Single : Int → LocalResult
  | Ambiguous : Int → Int → LocalResult
  deriving DecidableEq

/-- Model of `LocalResult::latest`: the later of the valid interpretations, if
any. -/
def LocalResult.latest : LocalResult → Option Int
  | LocalResult.None => Option.none
  | LocalResult.Single t => some t
  | LocalResult.Ambiguous _ l => some l

/-- Model of the `Schedule` struct (minus the time zone, which is passed as a
function argument below): the remaining output of the merged iterator
(`util::MergedIterator` is not under `src/`; the event source consumes it only
as a plain iterator of naive timestamps, so it is modelled by the list of its
upcoming outputs), the cached next-fire instant, and the armed-timer flag. -/
structure Schedule where
  upcoming : List NaiveDateTime
  next : Option Int
  waiting : Bool
  deriving DecidableEq

/-- Model of `Schedule::next` (schedule.rs lines 51-57): pull the merged
stream, resolve each candidate through the time zone keeping the later of
ambiguous interpretations, and return the first resulting instant strictly
after `now`, together with the rest of the stream.  A `none` result marks the
path on which the Rust code panics in `unwrap` (the modelled stream prefix is
exhausted). -/
def scheduleNext (tz : NaiveDateTime → LocalResult) (now : Int) :
    List NaiveDateTime → Option (Int × List NaiveDateTime)
  | [] => Option.none
  | tm :: rest =>
    match (tz tm).latest with
    | some z => if now < z then some (z, rest) else scheduleNext tz now rest
    | Option.none => scheduleNext tz now rest

/-- Outcome of one poll: the model of `Async::NotReady` and
`Async::Ready(Some(()))`. -/
inductive PollResult where
  | notReady : PollResult
  | ready : PollResult
  deriving DecidableEq

/-- Model of `<Schedule as Stream>::poll` (schedule.rs lines 79-103) at a given
current instant `now`.  The last component of the result counts the background
timer threads spawned by this poll (`Schedule::set_timer` both stores `true`
into the armed flag and spawns one thread).  A `none` result marks a path on
which the Rust code panics. -/
def Schedule.poll (tz : NaiveDateTime → LocalResult) (now : Int) (st : Schedule) :
    Option (Schedule × PollResult × Nat) :=
  match (match st.next with
         | some n => some (n, st.upcoming)
         | Option.none => scheduleNext tz now st.upcoming) with
  | Option.none => Option.none
  | some (next, ups) =>
    if 0 ≤ next - now then
      some (⟨ups, some next, true⟩, PollResult.notReady, if st.waiting then 0 else 1)
    else
      match scheduleNext tz now ups with
      | some (n2, ups2) => some (⟨ups2, some n2, true⟩, PollResult.ready, 1)
      | Option.none => Option.none

/-- A configuration of the event source together with the number of armed
background timers that have not yet completed. -/
structure SysState where
  sched : Schedule
  armed : Nat
  deriving DecidableEq

/-- Events of the concurrent system: the consumer polls at some instant, or an
outstanding background timer completes (its thread wakes the task and clears
the armed flag). -/
inductive Event where
  | pollAt : Int → Event
  | timerDone : Event
  deriving DecidableEq

/-- One transition of the event-source system. -/
def SysState.step (tz : NaiveDateTime → LocalResult) (s : SysState) :
    Event → Option SysState
  | Event.pollAt now =>
    match Schedule.poll tz now s.sched with
    | some (st, _, k) => some ⟨st, s.armed + k⟩
    | Option.none => Option.none
  | Event.timerDone =>
    match s.armed with
    | 0 => Option.none
    | n + 1 => some ⟨⟨s.sched.upcoming, s.sched.next, false⟩, n⟩

/-- Run a sequence of events from a state. -/
def SysState.run (tz : NaiveDateTime → LocalResult) (s : SysState) :
    List Event → Option SysState
  | [] => some s
  | e :: es =>
    match s.step tz e with
    | some s' => s'.run tz es
    | Option.none => Option.none

/-! ## Helper lemmas about the parser -/

/-- A successfully parsed `u32` value fits in 32 bits. -/
lemma parseU32Chars_lt {c : List Char} {a : Nat} (h : parseU32Chars c = some a) :
    a < 4294967296 := by
  unfold parseU32Chars at h
  by_cases h1 : (stripPlus c).isEmpty <;> simp only [h1, if_true, if_false] at h
  · exact absurd h (by simp)
  · by_cases h2 : (stripPlus c).all Char.isDigit <;> simp only [h2, if_true, if_false] at h
    · by_cases h3 :
          (stripPlus c).foldl (fun acc c => acc * 10 + digitVal c) 0 < 4294967296 <;>
        simp only [h3, if_true, if_false] at h
      · cases h
        exact h3
      · exact absurd h (by simp)
    · exact absurd h (by simp)

/-- A string that parses as a `u32` contains no dash. -/
lemma parseU32Chars_no_dash {c : List Char} {a : Nat} (h : parseU32Chars c = some a) :
    ('-') ∉ c := by
  unfold parseU32Chars at h
  by_cases h1 : (stripPlus c).isEmpty <;> simp only [h1, if_true, if_false] at h
  · exact absurd h (by simp)
  · by_cases h2 : (stripPlus c).all Char.isDigit <;> simp only [h2, if_true, if_false] at h
    · intro hm
      have hm' : ('-') ∈ stripPlus c := by
        cases c with
        | nil => exact absurd hm (List.not_mem_nil _)
        | cons d rest =>
          by_cases hd : d = '+'
          · subst hd
            rcases List.mem_cons.mp hm with h' | h'
            · exact absurd h' (by decide)
            · simpa [stripPlus] using h'
          · simpa [stripPlus, hd] using hm
      have hdig := List.all_eq_true.mp h2 _ hm'
      exact absurd hdig (by decide)
    · exact absurd h (by simp)

/-- Splitting at the dash of `l ++ "-" ++ r` recovers `l` and `r` when `l`
contains no dash. -/
lemma splitAtDash_append : ∀ (l r : List Char), ('-') ∉ l →
    splitAtDash (l ++ '-' :: r) = some (l, r)
  | [], r, _ => by simp [splitAtDash]
  | c :: l, r, h => by
    have hc : ¬ c = '-' := by
      intro hc
      subst hc
      exact h (List.mem_cons_self _ _)
    have hl : ('-') ∉ l := fun hm => h (List.mem_cons_of_mem c hm)
    simp [splitAtDash, hc, splitAtDash_append l r hl]

/-! ## Claims about `parse_range` -/

/-- C6: `parse_range "1-6"` is the inclusive range 1..6 (as the half-open pair
`(1, 7)`, whose iterated values are `[1, 2, 3, 4, 5, 6]`), `parse_range "0-11"`
is `(0, 12)` with values `0..11`, and the inputs `""`, `"0"`, `"1-"`, `"2- 3"`
and `"3-4-4"` are all rejected. -/
theorem parse_range_examples :
    parse_range ("1-6") = some (1, 7) ∧
    rangeList 1 7 = [1, 2, 3, 4, 5, 6] ∧
    parse_range ("0-11") = some (0, 12) ∧
    rangeList 0 12 = [0, 1, 2, 3, 4, 5, 6, 7, 8, 9, 10, 11] ∧
    parse_range ("") = Option.none ∧
    parse_range ("0") = Option.none ∧
    parse_range ("1-") = Option.none ∧
    parse_range ("2- 3") = Option.none ∧
    parse_range ("3-4-4") = Option.none := by
  refine ⟨by decide, by decide, by decide, by decide, by decide, by decide, by decide,
    by decide, by decide⟩

/-- C9: for a reversed range `"a-b"` with both components parsing as `u32` and
`a > b`, `parse_range` succeeds with the half-open pair `(a, b + 1)`, whose
iterated value list is empty; the input is not rejected as malformed. -/
theorem parse_range_reversed (sa se : String) (a b : Nat)
    (ha : parseU32Chars sa.data = some a) (hb : parseU32Chars se.data = some b)
    (hlt : b < a) :
    parse_range (sa ++ ("-") ++ se) = some (a, b + 1) ∧ rangeList a (b + 1) = [] := by
  have hna : ('-') ∉ sa.data := parseU32Chars_no_dash ha
  have hdata : (sa ++ ("-") ++ se).data = sa.data ++ '-' :: se.data := by
    rw [String.data_append, String.data_append]
    simp
  constructor
  · unfold parse_range
    rw [hdata, splitAtDash_append _ _ hna]
    have hb2 : 1 + b < 4294967296 := by
      have := parseU32Chars_lt ha
      omega
    simp only [ha, hb]
    rw [Nat.add_comm 1 b, Nat.mod_eq_of_lt (by omega)]
  · unfold rangeList
    have h0 : b + 1 - a = 0 := by omega
    rw [h0]
    rfl

/-- Witness for C9 at the concrete reversed range `"5-2"`. -/
theorem parse_range_reversed_witness :
    parse_range (("5") ++ ("-") ++ ("2")) = some (5, 3) ∧ rangeList 5 3 = [] :=
  parse_range_reversed ("5") ("2") 5 2 (by decide) (by decide) (by decide)

/-- C10: `parse_range` computes the exclusive end of the result as `1 + e` in
`u32` arithmetic.  The end component of the well-formed input
`"0-4294967295"` parses to `u32::MAX = 4294967295`, and `1 + 4294967295`
exceeds every `u32` value, so the addition overflows: in the model the
wrapped end is `0` (in a debug build the Rust code panics at this addition),
so the computation is not total over the inputs the parser accepts. -/
theorem parse_range_end_overflow :
    parseU32Chars (("4294967295").data) = some 4294967295 ∧
    4294967296 ≤ 1 + 4294967295 ∧
    (1 + 4294967295) % 4294967296 = 0 ∧
    parse_range ("0-4294967295") = some (0, 0) := by
  refine ⟨by decide, by decide, by decide, by decide⟩

/-! ## Helper lemmas about `regularize` -/

/-- Dedup only drops elements. -/
lemma rustDedup_sublist : ∀ l : List Nat, List.Sublist (rustDedup l) l
  | [] => List.Sublist.refl _
  | [a] => List.Sublist.refl _
  | a :: b :: rest => by
    by_cases h : a = b
    · simp only [rustDedup, if_pos h]
      exact (rustDedup_sublist (b :: rest)).cons a
    · simp only [rustDedup, if_neg h]
      exact (rustDedup_sublist (b :: rest)).cons₂ a

/-- Dedup keeps every element. -/
lemma mem_rustDedup : ∀ {l : List Nat} {x : Nat}, x ∈ l → x ∈ rustDedup l
  | [], _, h => absurd h (List.not_mem_nil _)
  | [a], x, h => by simpa [rustDedup] using h
  | a :: b :: rest, x, h => by
    by_cases hab : a = b
    · simp only [rustDedup, if_pos hab]
      rcases List.mem_cons.mp h with rfl | h'
      · exact mem_rustDedup (show x ∈ b :: rest by rw [hab]; exact List.mem_cons_self _ _)
      · exact mem_rustDedup h'
    · simp only [rustDedup, if_neg hab]
      rcases List.mem_cons.mp h with rfl | h'
      · exact List.mem_cons_self _ _
      · exact List.mem_cons_of_mem _ (mem_rustDedup h')

/-- Dedup of a non-empty list is non-empty. -/
lemma rustDedup_ne_nil : ∀ {l : List Nat}, l ≠ [] → rustDedup l ≠ []
  | [], h => absurd rfl h
  | [_], _ => by simp [rustDedup]
  | a :: b :: rest, _ => by
    by_cases hab : a = b
    · simp only [rustDedup, if_pos hab]
      exact rustDedup_ne_nil (by simp)
    · simp only [rustDedup, if_neg hab]
      simp


/-- The defaulted last element of a non-empty list is a member. -/
lemma getLastD_cons_mem : ∀ (a : Nat) (t : List Nat), (a :: t).getLastD 0 ∈ a :: t
  | _, [] => List.mem_cons_self _ _
  | a, b :: t => List.mem_cons_of_mem a (getLastD_cons_mem b t)

/-- In a sorted non-empty list every element is bounded by the defaulted last
element. -/
lemma le_getLastD_sorted : ∀ {t : List Nat} {a x : Nat},
    List.Sorted (· ≤ ·) (a :: t) → x ∈ a :: t → x ≤ (a :: t).getLastD 0
  | [], _, x, _, hx => by
    rcases List.mem_cons.mp hx with rfl | h'
    · exact le_refl _
    · exact absurd h' (List.not_mem_nil _)
  | b :: t, a, x, hs, hx => by
    obtain ⟨hab, hs'⟩ := List.sorted_cons.mp hs
    rcases List.mem_cons.mp hx with rfl | h'
    · show x ≤ (b :: t).getLastD 0
      exact le_trans (hab b (List.mem_cons_self _ _))
        (le_getLastD_sorted hs' (List.mem_cons_self _ _))
    · show x ≤ (b :: t).getLastD 0
      exact le_getLastD_sorted hs' h'

/-- Membership in the sorted-and-deduplicated list agrees with membership in
the input. -/
lemma mem_sortDedup (v : List Nat) (x : Nat) :
    x ∈ rustDedup (List.insertionSort (· ≤ ·) v) ↔ x ∈ v := by
  constructor
  · intro h
    exact (List.perm_insertionSort (· ≤ ·) v).mem_iff.mp
      (List.Sublist.mem h (rustDedup_sublist _))
  · intro h
    exact mem_rustDedup ((List.perm_insertionSort (· ≤ ·) v).mem_iff.mpr h)

/-- The normalization step fails exactly when some supplied value reaches the
exclusive upper bound `hi` of its domain. -/
lemma regularize_eq_none (v : List Nat) (hi : Nat) :
    regularize v 0 hi = Option.none ↔ ∃ x ∈ v, hi ≤ x := by
  by_cases hv : v.isEmpty
  · have hnil : v = [] := List.isEmpty_iff.mp hv
    subst hnil
    simp [regularize]
  · have hvne : v ≠ [] := fun h => hv (by simp [h])
    have hsne : List.insertionSort (· ≤ ·) v ≠ [] := by
      intro hnil
      have hp := List.perm_insertionSort (· ≤ ·) v
      rw [hnil] at hp
      exact hvne hp.symm.eq_nil
    obtain ⟨c, cw, hw⟩ : ∃ c cw, rustDedup (List.insertionSort (· ≤ ·) v) = c :: cw := by
      rcases hd : rustDedup (List.insertionSort (· ≤ ·) v) with _ | ⟨c, cw⟩
      · exact absurd hd (rustDedup_ne_nil hsne)
      · exact ⟨c, cw, rfl⟩
    have hws : List.Sorted (· ≤ ·) (c :: cw) :=
      hw ▸ List.Pairwise.sublist (rustDedup_sublist _) (List.sorted_insertionSort (· ≤ ·) v)
    have hmem : ∀ x, x ∈ c :: cw ↔ x ∈ v := fun x => hw ▸ mem_sortDedup v x
    unfold regularize
    rw [if_neg hv]
    simp only [hw]
    by_cases hcond : hi ≤ (c :: cw).getLastD 0
    · rw [if_pos (Or.inr hcond)]
      exact ⟨fun _ => ⟨(c :: cw).getLastD 0, (hmem _).mp (getLastD_cons_mem c cw), hcond⟩,
             fun _ => rfl⟩
    · have hnor : ¬ ((c :: cw).headD 0 < 0 ∨ hi ≤ (c :: cw).getLastD 0) := by
        intro hor
        rcases hor with h1 | h2
        · exact Nat.not_lt_zero _ h1
        · exact hcond h2
      rw [if_neg hnor]
      constructor
      · intro hx
        exact absurd hx (by simp)
      · intro hx
        obtain ⟨x, hxv, hxhi⟩ := hx
        exact absurd (le_trans hxhi (le_getLastD_sorted hws ((hmem x).mpr hxv))) hcond

/-- Construction fails exactly when one of the three normalizations fails. -/
lemma new_eq_none_iff (w h m : List Nat) :
    UnitSchedule.new w h m = Option.none ↔
      regularize w 0 7 = Option.none ∨ regularize h 0 24 = Option.none ∨
        regularize m 0 60 = Option.none := by
  unfold UnitSchedule.new
  rcases regularize w 0 7 with _ | w' <;> rcases regularize h 0 24 with _ | h' <;>
    rcases regularize m 0 60 with _ | m' <;> simp

/-- Sorting is invariant under permutation of the input. -/
lemma insertionSort_congr_perm {v : List Nat} {u : List Nat} (h : List.Perm v u) :
    List.insertionSort (· ≤ ·) v = List.insertionSort (· ≤ ·) u :=
  List.eq_of_perm_of_sorted
    ((List.perm_insertionSort _ v).trans (h.trans (List.perm_insertionSort _ u).symm))
    (List.sorted_insertionSort _ v) (List.sorted_insertionSort _ u)

/-- Normalization is invariant under permutation of the input. -/
lemma regularize_congr_perm {v u : List Nat} (lo hi : Nat) (h : List.Perm v u) :
    regularize v lo hi = regularize u lo hi := by
  unfold regularize
  rw [h.isEmpty_eq, insertionSort_congr_perm h]

/-! ## Claims about `UnitSchedule::new` -/

/-- C4: `UnitSchedule::new` returns `None` exactly when some supplied value
lies outside its field's domain (weekdays 0-6, hours 0-23, minutes 0-59; the
values are `u32`, so only the upper bounds can be violated), and returns
`Some` otherwise.  Sorting and de-duplication do not change the set of
values, so the condition is stated on the supplied vectors. -/
theorem unitSchedule_new_none_iff (w h m : List Nat) :
    UnitSchedule.new w h m = Option.none ↔
      (∃ x ∈ w, 7 ≤ x) ∨ (∃ x ∈ h, 24 ≤ x) ∨ (∃ x ∈ m, 60 ≤ x) := by
  rw [new_eq_none_iff, regularize_eq_none, regularize_eq_none, regularize_eq_none]

/-- C7: pattern construction is order-independent: permuting each field of the
input yields an equal result (equal patterns, or failure on both). -/
theorem unitSchedule_new_perm (w₁ w₂ h₁ h₂ m₁ m₂ : List Nat)
    (hw : List.Perm w₁ w₂) (hh : List.Perm h₁ h₂) (hm : List.Perm m₁ m₂) :
    UnitSchedule.new w₁ h₁ m₁ = UnitSchedule.new w₂ h₂ m₂ := by
  unfold UnitSchedule.new
  rw [regularize_congr_perm 0 7 hw, regularize_congr_perm 0 24 hh,
    regularize_congr_perm 0 60 hm]

/-- Witness for C7 at the permuted inputs of the repository's own unit test. -/
theorem unitSchedule_new_perm_witness :
    UnitSchedule.new [1, 4, 0, 6] [8, 11, 23, 0] [0, 59] =
      UnitSchedule.new [0, 1, 4, 6] [0, 8, 11, 23] [0, 59] :=
  unitSchedule_new_perm _ _ _ _ _ _ (by decide) (by decide) (by decide)

/-- C8: supplying an empty vector for a field produces the same pattern as
supplying that field's full domain explicitly (`[0, ..., 6]`, `[0, ..., 23]`
and `[0, ..., 59]` respectively). -/
theorem unitSchedule_new_empty_is_full_domain :
    (∀ h m, UnitSchedule.new [] h m = UnitSchedule.new (List.range 7) h m) ∧
    (∀ w m, UnitSchedule.new w [] m = UnitSchedule.new w (List.range 24) m) ∧
    (∀ w h, UnitSchedule.new w h [] = UnitSchedule.new w h (List.range 60)) := by
  refine ⟨fun h m => ?_, fun w m => ?_, fun w h => ?_⟩
  · unfold UnitSchedule.new
    rw [show regularize [] 0 7 = regularize (List.range 7) 0 7 from by decide]
  · unfold UnitSchedule.new
    rw [show regularize [] 0 24 = regularize (List.range 24) 0 24 from by decide]
  · unfold UnitSchedule.new
    rw [show regularize [] 0 60 = regularize (List.range 60) 0 60 from by decide]

/-! ## Helper lemmas about `Schedule::next` -/

/-- Every instant returned by `Schedule::next` is strictly after `now`. -/
lemma scheduleNext_gt (tz : NaiveDateTime → LocalResult) (now : Int) :
    ∀ (l : List NaiveDateTime) (z : Int) (r : List NaiveDateTime),
      scheduleNext tz now l = some (z, r) → now < z
  | [], z, r, h => by simp [scheduleNext] at h
  | tm :: rest, z, r, h => by
    unfold scheduleNext at h
    split at h
    · split at h
      · cases Option.some.inj h
        assumption
      · exact scheduleNext_gt tz now rest z r h
    · exact scheduleNext_gt tz now rest z r h

/-- The instant `Schedule::next` returns is the first element of the
filter-mapped candidate stream that is strictly after `now`, exactly as the
`filter_map(..).find(..)` pipeline in the source computes it. -/
lemma scheduleNext_fst (tz : NaiveDateTime → LocalResult) (now : Int) :
    ∀ l : List NaiveDateTime,
      (scheduleNext tz now l).map Prod.fst =
        List.find? (fun z => decide (now < z))
          (List.filterMap (fun tm => (tz tm).latest) l)
  | [] => rfl
  | tm :: rest => by
    unfold scheduleNext
    rcases hl : (tz tm).latest with _ | t
    · simp only [List.filterMap_cons, hl]
      exact scheduleNext_fst tz now rest
    · by_cases hlt : now < t
      · simp [List.filterMap_cons, hl, List.find?_cons, hlt]
      · simp only [List.filterMap_cons, hl, List.find?_cons, decide_eq_true hlt]
        simp only [if_neg hlt, decide_eq_false hlt]
        exact scheduleNext_fst tz now rest

/-! ## Claims about the timer-driven event source -/

/-- C5: the timezone-resolution policy of the event source.  First, on an
ambiguous local time `latest` picks the later of the two interpretations.
Second, a candidate whose local time does not exist in the timezone is
discarded and the next candidate of the merged stream is tried.  Third, the
instant used is the first resolved instant strictly after `now`. -/
theorem schedule_next_tz_policy :
    (∀ e l : Int, LocalResult.latest (LocalResult.Ambiguous e l) = some l) ∧
    (∀ (tz : NaiveDateTime → LocalResult) (now : Int) (tm : NaiveDateTime)
        (rest : List NaiveDateTime), tz tm = LocalResult.None →
          scheduleNext tz now (tm :: rest) = scheduleNext tz now rest) ∧
    (∀ (tz : NaiveDateTime → LocalResult) (now : Int) (l : List NaiveDateTime),
        (scheduleNext tz now l).map Prod.fst =
          List.find? (fun z => decide (now < z))
            (List.filterMap (fun tm => (tz tm).latest) l)) := by
  refine ⟨fun e l => rfl, fun tz now tm rest h => ?_, fun tz now l => scheduleNext_fst tz now l⟩
  show scheduleNext tz now (tm :: rest) = scheduleNext tz now rest
  rw [scheduleNext, h]
  exact rfl

/-- Witness for C5: a gap candidate at the head of the stream is skipped. -/
theorem schedule_next_tz_policy_witness :
    scheduleNext (fun _ => LocalResult.None) 0 (⟨0, 0, 0, 0⟩ :: []) =
      scheduleNext (fun _ => LocalResult.None) 0 [] :=
  schedule_next_tz_policy.2.1 (fun _ => LocalResult.None) 0 ⟨0, 0, 0, 0⟩ [] rfl

/-- C2 counterexample: when the signed duration from now to the cached
next-fire instant is exactly zero, `Duration::to_std` succeeds, so poll takes
the not-ready branch (arming a zero-duration timer), not the fired branch the
claim asserts for a zero duration. -/
theorem schedule_poll_zero_duration_not_ready :
    Schedule.poll (fun _ => LocalResult.None) 5 ⟨[], some 5, false⟩ =
      some (⟨[], some 5, true⟩, PollResult.notReady, 1) ∧
    PollResult.notReady ≠ PollResult.ready := ⟨rfl, by decide⟩

/-- C2 amended: with a cached next-fire instant `n`, a poll at `now` with
non-negative signed duration `n - now` (positive or exactly zero) arms a timer
when none is armed (one spawn if the flag is clear, none if it is set) and
reports not-ready; only a strictly negative duration recomputes the following
occurrence, arms a fresh timer for it and reports one fired signal; and the
recomputed occurrence is strictly after `now`. -/
theorem schedule_poll_branches (tz : NaiveDateTime → LocalResult) (now : Int)
    (ups : List NaiveDateTime) (w : Bool) (n : Int) :
    (0 ≤ n - now → Schedule.poll tz now ⟨ups, some n, w⟩ =
        some (⟨ups, some n, true⟩, PollResult.notReady, if w then 0 else 1)) ∧
    (n - now < 0 → Schedule.poll tz now ⟨ups, some n, w⟩ =
        (scheduleNext tz now ups).map
          (fun p => (⟨p.2, some p.1, true⟩, PollResult.ready, 1))) ∧
    (∀ z rest, scheduleNext tz now ups = some (z, rest) → now < z) := by
  refine ⟨fun hpos => ?_, fun hneg => ?_, fun z rest h => scheduleNext_gt tz now ups z rest h⟩
  · show (if 0 ≤ n - now then _ else _) = _
    rw [if_pos hpos]
  · show (if 0 ≤ n - now then _ else _) = _
    rw [if_neg (by omega)]
    cases hx : scheduleNext tz now ups with
    | none => rfl
    | some zr => rfl

/-- Witness for the amended C2 at a concrete positive duration. -/
theorem schedule_poll_branches_witness :
    Schedule.poll (fun _ => LocalResult.None) 0 ⟨[], some 3, false⟩ =
      some (⟨[], some 3, true⟩, PollResult.notReady, 1) :=
  (schedule_poll_branches (fun _ => LocalResult.None) 0 [] false 3).1 (by decide)

/-- C3 counterexample: two armed timers are reachable.  The first poll (at
instant 0, next occurrence 10) arms a timer.  Before that timer's background
thread completes (no `timerDone` event occurs), the consumer polls again at
instant 11; the cached instant 10 has elapsed, and the elapsed branch of poll
calls `set_timer` unconditionally — even though the armed flag is still set —
spawning a second timer, so the reachable state has two outstanding armed
timers. -/
theorem schedule_two_timers_reachable :
    SysState.run (fun dt => LocalResult.Single (Int.ofNat dt.day))
        ⟨⟨[⟨10, 0, 0, 0⟩, ⟨20, 0, 0, 0⟩], Option.none, false⟩, 0⟩
        [Event.pollAt 0, Event.pollAt 11] =
      some ⟨⟨[], some 20, true⟩, 2⟩ ∧ 1 < 2 := ⟨by decide, by decide⟩

/-- C3 amended: while the armed flag is set, a poll that reports not-ready (the
not-yet-elapsed branch) spawns no timer; but a poll that reports a fired signal
(the elapsed branch) always spawns exactly one fresh timer, regardless of the
flag, so a late poll while a timer is still armed produces a second timer. -/
theorem schedule_poll_armed_flag (tz : NaiveDateTime → LocalResult) (now : Int)
    (st : Schedule) (out : Schedule × PollResult × Nat)
    (hw : st.waiting = true) (hp : Schedule.poll tz now st = some out) :
    (out.2.1 = PollResult.notReady → out.2.2 = 0) ∧
    (out.2.1 = PollResult.ready → out.2.2 = 1) := by
  unfold Schedule.poll at hp
  split at hp
  · exact absurd hp (by simp)
  · split at hp
    · obtain rfl := Option.some.inj hp
      refine ⟨fun _ => ?_, fun hc => ?_⟩
      · simp [hw]
      · exact nomatch hc
    · split at hp
      · obtain rfl := Option.some.inj hp
        refine ⟨fun hc => ?_, fun _ => rfl⟩
        exact nomatch hc
      · exact absurd hp (by simp)

/-- Witness for the amended C3: a poll with the flag set and an unexpired
cached instant reports not-ready and spawns no timer. -/
theorem schedule_poll_armed_flag_witness :
    (PollResult.notReady = PollResult.notReady → (0 : Nat) = 0) ∧
    (PollResult.notReady = PollResult.ready → (0 : Nat) = 1) :=
  schedule_poll_armed_flag (fun _ => LocalResult.None) 0 ⟨[], some 5, true⟩
    (⟨[], some 5, true⟩, PollResult.notReady, 0) rfl rfl

/-! ## Claims about `iter_since` and the occurrence iterator

The model is validated against the repository's own unit test (`mod tests`,
`fn iter`): 2017-02-13 is a Monday, so with day 0 a Sunday it is day 1;
2017-02-16 (Thursday) is day 4, 2017-02-19 (Sunday) is day 7, 2017-02-20 is
day 8, 2017-02-28 (Tuesday) is day 16 and 2017-03-05 (Sunday) is day 21. -/

/-- The model reproduces the first vector of the repository's `iter` test. -/
lemma iter_since_matches_unit_test_one :
    (UnitSchedule.new [1, 0] [8, 12] [20, 40]).bind
        (fun us => occurrences us ⟨1, 8, 20, 0⟩ 8) =
      some [⟨1, 8, 40, 0⟩, ⟨1, 12, 20, 0⟩, ⟨1, 12, 40, 0⟩, ⟨7, 8, 20, 0⟩,
            ⟨7, 8, 40, 0⟩, ⟨7, 12, 20, 0⟩, ⟨7, 12, 40, 0⟩, ⟨8, 8, 20, 0⟩] := by decide

/-- The model reproduces the second and third vectors of the `iter` test. -/
lemma iter_since_matches_unit_test_two :
    (UnitSchedule.new [1, 0] [8, 12] [20, 40]).bind
        (fun us => occurrences us ⟨4, 13, 50, 0⟩ 2) =
      some [⟨7, 8, 20, 0⟩, ⟨7, 8, 40, 0⟩] ∧
    (UnitSchedule.new [1, 0] [8, 12] [20, 40]).bind
        (fun us => occurrences us ⟨16, 12, 0, 0⟩ 2) =
      some [⟨21, 8, 20, 0⟩, ⟨21, 8, 40, 0⟩] := by
  refine ⟨by decide, by decide⟩

/-- C1: evaluation of the code at a failing input.  For the valid pattern with
weekdays {1} (Monday), hours {8, 12}, minutes {0}, starting from a Monday at
09:00 (day 1 with day 0 a Sunday), the iterator produces Monday 12:00 and then
Monday 08:00 of the same day: the weekday-advance loop of `Iter::next` never
runs when the pattern has a single weekday, so the tracked date never moves.
The second produced timestamp is smaller than the first (the sequence is not
non-decreasing) and smaller than the starting instant (not strictly greater
than it), refuting both parts of the claim. -/
theorem iter_since_single_weekday_regresses :
    (UnitSchedule.new [1] [8, 12] [0]).bind
        (fun us => occurrences us ⟨1, 9, 0, 0⟩ 2) =
      some [⟨1, 12, 0, 0⟩, ⟨1, 8, 0, 0⟩] ∧
    NaiveDateTime.toSec ⟨1, 8, 0, 0⟩ < NaiveDateTime.toSec ⟨1, 9, 0, 0⟩ ∧
    NaiveDateTime.toSec ⟨1, 8, 0, 0⟩ < NaiveDateTime.toSec ⟨1, 12, 0, 0⟩ := by
  refine ⟨by decide, by decide, by decide⟩
